import Mathlib

/-!
Verification of the `promise` Go library (felix-kaestner/promise).

The library provides a generic future/promise primitive:

```go
type promise[T any] struct {
    wg    sync.WaitGroup
    once  sync.Once
    done  chan struct{}
    value T
    err   error
    fn    func() (T, error)
}
```

We model a promise over a result type `T` and an error type `E` as a record
holding the deferred computation `fn`, the resolution state (`none` while
unresolved, `some (value, err)` once the computation has run), and a counter
of how many times `fn` has been invoked (used to state the exactly-once
claims).  Go's `error` is modelled as `Option E` (`nil` = `none`).

Concurrency is modelled by linearisation: every observer operation acts on
the promise state in some sequence, and the nondeterministic scheduling of
the combinators' fan-out goroutines is an explicit schedule parameter over
which the theorems quantify.
-/

universe u v

namespace promise

/-- Model of the Go struct `promise[T]`.
`resolved = none` means the computation has not finished;
`resolved = some (v, e)` models the fields `value = v`, `err = e` together
with the closed `done` channel.  `invocations` counts executions of `fn`;
it is not a field of the Go struct but a ghost variable used to state the
at-most-once property. -/
structure Promise (T : Type u) (E : Type v) where
  fn : Unit → T × Option E
  resolved : Option (T × Option E)
  invocations : Nat

/-- `New` (promise.go): returns a fresh promise holding only the deferred
computation; nothing has run yet. -/
def New {T : Type u} {E : Type v} (fn : Unit → T × Option E) : Promise T E :=
  { fn := fn, resolved := none, invocations := 0 }

/-- `get` (promise.go): `p.once.Do` starts the computation in a goroutine
exactly once and `p.wg.Wait()` blocks until `p.value, p.err = p.fn()` has
been stored and `close(p.done)` has fired.  In the linearised model: if the
promise is already resolved this is a no-op, otherwise `fn` runs once and
its pair is stored. -/
def get {T : Type u} {E : Type v} (p : Promise T E) : Promise T E :=
  match p.resolved with
  | some _ => p
  | none =>
      { p with resolved := some (p.fn ()), invocations := p.invocations + 1 }

/-- The `(value, err)` pair stored in a resolved promise (the unresolved
branch is never read: every reader first calls `get`). -/
def resVal {T : Type u} {E : Type v} (p : Promise T E) : T × Option E :=
  match p.resolved with
  | some r => r
  | none => p.fn ()

/-- `Await` (promise.go): `p.get(); return p.value, p.err`.  Returns the
post-state together with the observed pair. -/
def Await {T : Type u} {E : Type v} (p : Promise T E) :
    Promise T E × (T × Option E) :=
  (get p, resVal (get p))

/-- `AwaitOr` (promise.go): `if value, err := p.Await(); err == nil
{ return value }; return defaultValue`. -/
def AwaitOr {T : Type u} {E : Type v} (p : Promise T E) (defaultValue : T) :
    Promise T E × T :=
  match Await p with
  | (p1, (value, none)) => (p1, value)
  | (p1, (_, some _)) => (p1, defaultValue)

/-- The ways a promise can be observed.  `awaitObs` and `awaitOrObs` block
the caller; `thenObs`, `onSuccessObs`, `onFailureObs` and `doneObs` hand off
to a goroutine that calls `get` (the callbacks themselves never mutate the
promise, so only the `get` effect is modelled). -/
inductive Obs (T : Type u) : Type u
  | awaitObs : Obs T
  | awaitOrObs (defaultValue : T) : Obs T
  | thenObs : Obs T
  | onSuccessObs : Obs T
  | onFailureObs : Obs T
  | doneObs : Obs T

/-- Effect of one observation on the promise state: every one of
`Await`, `AwaitOr`, `Then`, `OnSuccess`, `OnFailure`, `Done` calls `get`
(promise.go lines 84-124). -/
def obsStep {T : Type u} {E : Type v} (p : Promise T E) : Obs T → Promise T E
  | Obs.awaitObs => (Await p).1
  | Obs.awaitOrObs d => (AwaitOr p d).1
  | Obs.thenObs => get p
  | Obs.onSuccessObs => get p
  | Obs.onFailureObs => get p
  | Obs.doneObs => get p

/-- Run a (linearised) sequence of observations against a promise. -/
def runObs {T : Type u} {E : Type v} (p : Promise T E) (ops : List (Obs T)) :
    Promise T E :=
  ops.foldl obsStep p

section PromiseLemmas

variable {T : Type u} {E : Type v}

theorem get_of_resolved (p : Promise T E) (r : T × Option E)
    (h : p.resolved = some r) : get p = p := by
  unfold get
  rw [h]

theorem get_of_new (fn : Unit → T × Option E) :
    get (New fn) = { fn := fn, resolved := some (fn ()), invocations := 1 } :=
  rfl

theorem get_resolved_isSome (p : Promise T E) :
    (get p).resolved.isSome := by
  unfold get
  cases h : p.resolved <;> simp [h]

theorem get_invocations (p : Promise T E) :
    (get p).invocations = p.invocations ∨
      ((get p).invocations = p.invocations + 1 ∧ p.resolved = none) := by
  unfold get
  cases h : p.resolved <;> simp [h]

theorem obsStep_eq_get (p : Promise T E) (o : Obs T) :
    obsStep p o = get p := by
  cases o <;> simp [obsStep, Await, AwaitOr]
  case awaitOrObs d =>
    rcases h : resVal (get p) with ⟨v, e⟩
    cases e <;> simp [h]

theorem runObs_eq_iterate_get (p : Promise T E) (ops : List (Obs T)) :
    runObs p ops = Nat.iterate get ops.length p := by
  induction ops generalizing p with
  | nil => rfl
  | cons o t ih =>
      simp only [runObs, List.foldl_cons, List.length_cons] at *
      rw [obsStep_eq_get, ih (get p)]
      rw [Function.iterate_succ_apply]

theorem get_get (p : Promise T E) : get (get p) = get p := by
  rcases h : (get p).resolved with _ | r
  · have hs := get_resolved_isSome p
    rw [h] at hs
    simp at hs
  · exact get_of_resolved _ r h

theorem runObs_of_resolved (p : Promise T E) (r : T × Option E)
    (h : p.resolved = some r) (ops : List (Obs T)) : runObs p ops = p := by
  induction ops with
  | nil => rfl
  | cons o t ih =>
      simp only [runObs, List.foldl_cons] at *
      rw [obsStep_eq_get, get_of_resolved p r h, ih]

theorem runObs_invocations_le (fn : Unit → T × Option E) (ops : List (Obs T)) :
    (runObs (New fn) ops).invocations ≤ 1 := by
  cases ops with
  | nil => simp [runObs, New]
  | cons o t =>
      simp only [runObs, List.foldl_cons]
      rw [obsStep_eq_get, get_of_new]
      rw [show List.foldl obsStep
            ({ fn := fn, resolved := some (fn ()), invocations := 1 } :
              Promise T E) t =
          runObs { fn := fn, resolved := some (fn ()), invocations := 1 } t
        from rfl]
      rw [runObs_of_resolved _ (fn ()) rfl]

theorem runObs_get_of_nonempty (fn : Unit → T × Option E) (o : Obs T)
    (ops : List (Obs T)) :
    runObs (New fn) (o :: ops) =
      { fn := fn, resolved := some (fn ()), invocations := 1 } := by
  simp only [runObs, List.foldl_cons]
  rw [obsStep_eq_get, get_of_new]
  exact runObs_of_resolved _ (fn ()) rfl ops

end PromiseLemmas

/-!
## Combinators

`All` and `Race` (promise.go) spawn one observer goroutine per input
promise.  Each goroutine blocks in a `select` on the combinator's one-shot
cancellation/commit channel and on its input's `Done()` channel, then runs
a short body.  We linearise the fan-out: a *schedule* lists the goroutines
in the order their select-plus-body executes.  For `All` each schedule
entry carries the goroutine's input index and a flag telling which `select`
branch it takes when both the `cancel` channel and its input's `Done()`
channel are ready (the flag is irrelevant while `cancel` is still open,
since an unready branch can never be chosen).  Every goroutine runs exactly
once, so a schedule of the Go program maps its indices onto a permutation
of `0..n-1`; theorems hypothesise exactly that (or just coverage of all
indices where that suffices).
-/

/-- The result pair an input promise resolves to, as observed by a
combinator goroutine via `p.Await()`. -/
def awaited {T : Type u} {E : Type v} (p : Promise T E) : T × Option E :=
  (Await p).2

/-- One step of `All`'s fan-out loop body (promise.go lines 164-176), acting
on the accumulator `(res, err)` of the outer closure.  `g.1` is the
goroutine's input index, `g.2` its select choice when `cancel` is closed:
`true` takes `case <-cancel: return`, `false` takes `case <-p.Done()`.
A failing input commits its error through `once.Do` (only the first error
is kept, `close(cancel)` is the transition of `err` to `some`); a
successful input writes its value into its own slot `res[i]`. -/
def allStep {T : Type u} {E : Type v} (ps : List (Promise T E))
    (acc : List T × Option E) (g : Nat × Bool) : List T × Option E :=
  match acc.2, g.2 with
  | some _, true => acc
  | _, _ =>
      match ps[g.1]? with
      | none => acc
      | some p =>
          match awaited p with
          | (v, none) => (acc.1.set g.1 v, acc.2)
          | (_, some e) =>
              match acc.2 with
              | none => (acc.1, some e)
              | some e0 => (acc.1, some e0)

/-- The computation wrapped by `All` (promise.go lines 143-179): zero inputs
resolve immediately to `([], nil)`; otherwise `res` starts as
`make([]T, len(ps))` (zero values), the fan-out goroutines run in schedule
order, `wg.Wait()` joins them all, and the closure returns `([], err)` if
any error was committed, else `(res, nil)`. -/
def allCompute {T : Type u} {E : Type v} [Inhabited T]
    (ps : List (Promise T E)) (sched : List (Nat × Bool)) :
    List T × Option E :=
  match ps with
  | [] => ([], none)
  | _ :: _ =>
      match sched.foldl (allStep ps) (List.replicate ps.length default, none) with
      | (_, some e) => ([], some e)
      | (res, none) => (res, none)

/-- `All` (promise.go): a promise over the joined computation. -/
def All {T : Type u} {E : Type v} [Inhabited T]
    (ps : List (Promise T E)) (sched : List (Nat × Bool)) :
    Promise (List T) E :=
  New (fun _ => allCompute ps sched)

/-- The pair `Race`'s `once.Do` body commits from the first-detected input's
awaited pair (promise.go lines 204-210): `var val T; if val, err = p.Await();
err == nil { t = val }` — on error the named return `t` keeps its zero
value and the input's value is discarded. -/
def raceCommit {T : Type u} {E : Type v} [Inhabited T]
    (r : T × Option E) : T × Option E :=
  match r.2 with
  | none => (r.1, none)
  | some e => (default, some e)

/-- The commit taken by the first scheduled goroutine holding a valid input
index.  Goroutines scheduled after the commit find `done` closed and either
return or find `once` already used, so only the first entry matters. -/
def firstCommit {T : Type u} {E : Type v} [Inhabited T]
    (ps : List (Promise T E)) : List Nat → Option (T × Option E)
  | [] => none
  | i :: is =>
      match ps[i]? with
      | some p => some (raceCommit (awaited p))
      | none => firstCommit ps is

/-- The computation wrapped by `Race` (promise.go lines 185-217): zero
inputs resolve immediately to the zero value of `T` and `nil` error (the
named returns `t, err`); otherwise `<-done` blocks until the one-shot
commit, which is made by the first scheduled goroutine.  In the Go program
every goroutine runs, so a schedule always contains a valid index; the
`none` fallback below corresponds to the unreachable forever-blocked
`<-done` and is never hit under the theorems' schedule hypotheses. -/
def raceCompute {T : Type u} {E : Type v} [Inhabited T]
    (ps : List (Promise T E)) (sched : List Nat) : T × Option E :=
  match ps with
  | [] => (default, none)
  | _ :: _ =>
      match firstCommit ps sched with
      | some r => r
      | none => (default, none)

/-- `Race` (promise.go): a promise over the racing computation. -/
def Race {T : Type u} {E : Type v} [Inhabited T]
    (ps : List (Promise T E)) (sched : List Nat) : Promise T E :=
  New (fun _ => raceCompute ps sched)

/-- First error detected across the schedule order: the error of the first
scheduled goroutine whose input resolved with a non-none error.  This is
the error `All`'s `once.Do` commits. -/
def firstErr {T : Type u} {E : Type v} (ps : List (Promise T E)) :
    List Nat → Option E
  | [] => none
  | i :: is =>
      match ps[i]? with
      | some p =>
          match (awaited p).2 with
          | some e => some e
          | none => firstErr ps is
      | none => firstErr ps is

section CombinatorLemmas

variable {T : Type u} {E : Type v}

theorem awaited_new (fn : Unit → T × Option E) : awaited (New fn) = fn () :=
  rfl

theorem allStep_length (ps : List (Promise T E)) (acc : List T × Option E)
    (g : Nat × Bool) : (allStep ps acc g).1.length = acc.1.length := by
  rcases acc with ⟨res, err⟩
  rcases g with ⟨i, b⟩
  unfold allStep
  cases err <;> cases b <;>
    (cases hq : ps[i]? with
     | none => simp
     | some p =>
         rcases hv : awaited p with ⟨v, e⟩
         cases e <;> simp [hv])

theorem allFold_length (ps : List (Promise T E)) (sched : List (Nat × Bool))
    (acc : List T × Option E) :
    (sched.foldl (allStep ps) acc).1.length = acc.1.length := by
  induction sched generalizing acc with
  | nil => rfl
  | cons g t ih =>
      rw [List.foldl_cons, ih, allStep_length]

theorem allStep_err_some (ps : List (Promise T E)) (res : List T) (e : E)
    (g : Nat × Bool) : (allStep ps (res, some e) g).2 = some e := by
  rcases g with ⟨i, b⟩
  unfold allStep
  cases b
  · cases hq : ps[i]? with
    | none => simp
    | some p =>
        rcases hv : awaited p with ⟨v, err⟩
        cases err <;> simp [hv]
  · simp

theorem allFold_err_some (ps : List (Promise T E)) (sched : List (Nat × Bool))
    (res : List T) (e : E) :
    (sched.foldl (allStep ps) (res, some e)).2 = some e := by
  induction sched generalizing res with
  | nil => rfl
  | cons g t ih =>
      rw [List.foldl_cons]
      have h := allStep_err_some ps res e g
      rcases hs : allStep ps (res, some e) g with ⟨res1, err1⟩
      rw [hs] at h
      simp only at h
      subst h
      exact ih res1

theorem allStep_none_invalid (ps : List (Promise T E)) (res : List T)
    (i : Nat) (b : Bool) (hq : ps[i]? = none) :
    allStep ps (res, none) (i, b) = (res, none) := by
  unfold allStep
  cases b <;> simp [hq]

theorem allStep_none_ok (ps : List (Promise T E)) (res : List T)
    (i : Nat) (b : Bool) (p : Promise T E) (v : T)
    (hq : ps[i]? = some p) (hv : awaited p = (v, none)) :
    allStep ps (res, none) (i, b) = (res.set i v, none) := by
  unfold allStep
  cases b <;> simp [hq, hv]

theorem allStep_none_fail (ps : List (Promise T E)) (res : List T)
    (i : Nat) (b : Bool) (p : Promise T E) (v : T) (e : E)
    (hq : ps[i]? = some p) (hv : awaited p = (v, some e)) :
    allStep ps (res, none) (i, b) = (res, some e) := by
  unfold allStep
  cases b <;> simp [hq, hv]

theorem firstErr_cons_invalid (ps : List (Promise T E)) (i : Nat)
    (is : List Nat) (hq : ps[i]? = none) :
    firstErr ps (i :: is) = firstErr ps is := by
  rw [firstErr, hq]

theorem firstErr_cons_ok (ps : List (Promise T E)) (i : Nat) (is : List Nat)
    (p : Promise T E) (hq : ps[i]? = some p) (hv : (awaited p).2 = none) :
    firstErr ps (i :: is) = firstErr ps is := by
  rw [firstErr, hq]
  simp [hv]

theorem firstErr_cons_fail (ps : List (Promise T E)) (i : Nat) (is : List Nat)
    (p : Promise T E) (e : E) (hq : ps[i]? = some p)
    (hv : (awaited p).2 = some e) :
    firstErr ps (i :: is) = some e := by
  rw [firstErr, hq]
  simp [hv]

theorem allFold_err (ps : List (Promise T E)) (sched : List (Nat × Bool))
    (res : List T) :
    (sched.foldl (allStep ps) (res, none)).2 =
      firstErr ps (sched.map Prod.fst) := by
  induction sched generalizing res with
  | nil => rfl
  | cons g t ih =>
      rcases g with ⟨i, b⟩
      rw [List.foldl_cons, List.map_cons]
      cases hq : ps[i]? with
      | none =>
          rw [allStep_none_invalid ps res i b hq, ih,
            firstErr_cons_invalid ps i _ hq]
      | some p =>
          rcases hv : awaited p with ⟨v, e⟩
          cases e with
          | none =>
              rw [allStep_none_ok ps res i b p v hq hv, ih,
                firstErr_cons_ok ps i _ p hq (by rw [hv])]
          | some e0 =>
              rw [allStep_none_fail ps res i b p v e0 hq hv,
                allFold_err_some,
                firstErr_cons_fail ps i _ p e0 hq (by rw [hv])]

theorem firstErr_none (ps : List (Promise T E))
    (hall : ∀ p ∈ ps, (awaited p).2 = none) (is : List Nat) :
    firstErr ps is = none := by
  induction is with
  | nil => rfl
  | cons i t ih =>
      cases hq : ps[i]? with
      | none => rw [firstErr_cons_invalid ps i t hq]; exact ih
      | some p =>
          have hp : p ∈ ps := List.getElem?_mem hq
          rw [firstErr_cons_ok ps i t p hq (hall p hp)]
          exact ih

theorem allFold_success_get (ps : List (Promise T E))
    (hall : ∀ p ∈ ps, (awaited p).2 = none) (sched : List (Nat × Bool)) :
    ∀ (res : List T), res.length = ps.length → ∀ (j : Nat),
    ((sched.foldl (allStep ps) (res, none)).1)[j]? =
      if j ∈ sched.map Prod.fst ∧ j < ps.length then
        (ps[j]?).map (fun p => (awaited p).1)
      else res[j]? := by
  induction sched with
  | nil =>
      intro res _ j
      rw [if_neg]
      · rfl
      · rintro ⟨hj, _⟩
        simp at hj
  | cons g t ih =>
      intro res hlen j
      rcases g with ⟨i, b⟩
      rw [List.foldl_cons, List.map_cons]
      cases hq : ps[i]? with
      | none =>
          rw [allStep_none_invalid ps res i b hq, ih res hlen j]
          have hbad : ¬ i < ps.length := by
            have := List.getElem?_eq_none_iff.mp hq
            omega
          by_cases hmem : j ∈ t.map Prod.fst ∧ j < ps.length
          · rw [if_pos hmem, if_pos ⟨List.mem_cons_of_mem i hmem.1, hmem.2⟩]
          · rw [if_neg hmem, if_neg]
            rintro ⟨hj1, hj2⟩
            rcases List.mem_cons.mp hj1 with h | h
            · subst h
              exact hbad hj2
            · exact hmem ⟨h, hj2⟩
      | some p =>
          have he := hall p (List.getElem?_mem hq)
          rcases hv : awaited p with ⟨v, e⟩
          rw [hv] at he
          simp only at he
          subst he
          have hi : i < ps.length := by
            rcases List.getElem?_eq_some_iff.mp hq with ⟨h, _⟩
            exact h
          rw [allStep_none_ok ps res i b p v hq hv,
            ih (res.set i v) (by rw [List.length_set]; exact hlen) j]
          by_cases hmem : j ∈ t.map Prod.fst ∧ j < ps.length
          · rw [if_pos hmem, if_pos ⟨List.mem_cons_of_mem i hmem.1, hmem.2⟩]
          · rw [if_neg hmem]
            by_cases hij : j = i
            · subst hij
              rw [if_pos ⟨List.mem_cons_self j _, hi⟩,
                List.getElem?_set_self (by omega), hq]
              simp [hv]
            · rw [List.getElem?_set_ne (fun h => hij h.symm), if_neg]
              rintro ⟨hj1, hj2⟩
              rcases List.mem_cons.mp hj1 with h | h
              · exact hij h
              · exact hmem ⟨h, hj2⟩

theorem awaited_all (ps : List (Promise T E)) [Inhabited T]
    (sched : List (Nat × Bool)) :
    awaited (All ps sched) = allCompute ps sched :=
  rfl

theorem awaited_race (ps : List (Promise T E)) [Inhabited T]
    (sched : List Nat) :
    awaited (Race ps sched) = raceCompute ps sched :=
  rfl

theorem allCompute_of_err [Inhabited T] (ps : List (Promise T E))
    (sched : List (Nat × Bool)) (e : E) (hne : ps ≠ [])
    (he : (sched.foldl (allStep ps)
        (List.replicate ps.length default, none)).2 = some e) :
    allCompute ps sched = ([], some e) := by
  cases ps with
  | nil => exact absurd rfl hne
  | cons q t =>
      rcases hr : (sched.foldl (allStep (q :: t))
          (List.replicate (q :: t).length default, none)) with ⟨res, err⟩
      rw [hr] at he
      simp only at he
      subst he
      rw [allCompute, hr]

theorem allCompute_success [Inhabited T] (ps : List (Promise T E))
    (sched : List (Nat × Bool))
    (hall : ∀ p ∈ ps, (awaited p).2 = none)
    (hcov : ∀ j, j < ps.length → j ∈ sched.map Prod.fst) :
    allCompute ps sched = (ps.map (fun p => (awaited p).1), none) := by
  cases ps with
  | nil => rfl
  | cons q t =>
      rcases hr : (sched.foldl (allStep (q :: t))
          (List.replicate (q :: t).length default, none)) with ⟨res, err⟩
      have herr : err = none := by
        have h2 := allFold_err (q :: t) sched (List.replicate (q :: t).length default)
        rw [hr] at h2
        simp only at h2
        rw [h2]
        exact firstErr_none (q :: t) hall (sched.map Prod.fst)
      subst herr
      rw [allCompute, hr]
      have hres : res = (q :: t).map (fun p => (awaited p).1) := by
        apply List.ext_getElem?
        intro j
        have hget := allFold_success_get (q :: t) hall sched
          (List.replicate (q :: t).length default)
          (by rw [List.length_replicate]) j
        rw [hr] at hget
        simp only at hget
        rw [hget, List.getElem?_map]
        by_cases hj : j < (q :: t).length
        · rw [if_pos ⟨hcov j hj, hj⟩]
        · rw [if_neg (fun hc => hj hc.2), List.getElem?_eq_none,
            List.getElem?_eq_none]
          · simp
          · omega
          · rw [List.length_replicate]
            omega
      rw [hres]

theorem race_first [Inhabited T] (ps : List (Promise T E)) (i : Nat)
    (p : Promise T E) (hq : ps[i]? = some p) (rest : List Nat) :
    awaited (Race ps (i :: rest)) = raceCommit (awaited p) := by
  have hne : ps ≠ [] := by
    intro h
    subst h
    simp at hq
  cases ps with
  | nil => exact absurd rfl hne
  | cons q t =>
      rw [awaited_race, raceCompute, firstCommit, hq]

theorem firstErr_isSome (ps : List (Promise T E)) (is : List Nat) (j : Nat)
    (p : Promise T E) (hj : j ∈ is) (hq : ps[j]? = some p)
    (hf : (awaited p).2.isSome) : (firstErr ps is).isSome := by
  induction is with
  | nil => cases hj
  | cons i t ih =>
      cases hqi : ps[i]? with
      | none =>
          rw [firstErr_cons_invalid ps i t hqi]
          rcases List.mem_cons.mp hj with h | h
          · subst h
            rw [hq] at hqi
            cases hqi
          · exact ih h
      | some q =>
          cases hv : (awaited q).2 with
          | some e =>
              rw [firstErr_cons_fail ps i t q e hqi hv]
              rfl
          | none =>
              rw [firstErr_cons_ok ps i t q hqi hv]
              rcases List.mem_cons.mp hj with h | h
              · subst h
                rw [hq] at hqi
                cases hqi
                rw [hv] at hf
                cases hf
              · exact ih h

theorem firstErr_spec (ps : List (Promise T E)) (is : List Nat) (e : E)
    (he : firstErr ps is = some e) :
    ∃ j, j ∈ is ∧ ∃ p, ps[j]? = some p ∧ (awaited p).2 = some e := by
  induction is with
  | nil => cases he
  | cons i t ih =>
      cases hqi : ps[i]? with
      | none =>
          rw [firstErr_cons_invalid ps i t hqi] at he
          rcases ih he with ⟨j, hj, hp⟩
          exact ⟨j, List.mem_cons_of_mem i hj, hp⟩
      | some q =>
          cases hv : (awaited q).2 with
          | some e0 =>
              rw [firstErr_cons_fail ps i t q e0 hqi hv] at he
              cases he
              exact ⟨i, List.mem_cons_self i t, q, hqi, hv⟩
          | none =>
              rw [firstErr_cons_ok ps i t q hqi hv] at he
              rcases ih he with ⟨j, hj, hp⟩
              exact ⟨j, List.mem_cons_of_mem i hj, hp⟩

end CombinatorLemmas

/-!
## Claims

One theorem per claim of the specification, stated over the embedding
above.  `T`/`E` are arbitrary where the claim is generic; counterexamples
use `Nat`/`String` (zero value of `Nat` is `0`, matching Go's zero value).
-/

theorem get_runObs_new {T : Type u} {E : Type v} (fn : Unit → T × Option E)
    (ops : List (Obs T)) :
    get (runObs (New fn) ops) =
      { fn := fn, resolved := some (fn ()), invocations := 1 } := by
  cases ops with
  | nil => exact get_of_new fn
  | cons o t =>
      rw [runObs_get_of_nonempty fn o t]
      exact get_of_resolved _ (fn ()) rfl

/-- C1: however a promise made by `New` is observed (any sequence of
`Await`, `AwaitOr`, `Then`, `OnSuccess`, `OnFailure`, `Done`), the wrapped
computation runs at most once; once an `Await` has resolved the promise,
every further `Await` — after any further observations — returns the same
`(value, err)` pair and never re-invokes the computation. -/
theorem c1_computation_at_most_once {T : Type u} {E : Type v}
    (fn : Unit → T × Option E) (ops ops2 : List (Obs T)) :
    (runObs (New fn) ops).invocations ≤ 1 ∧
    ((Await (runObs (New fn) ops)).1).invocations = 1 ∧
    (Await (runObs ((Await (runObs (New fn) ops)).1) ops2)).2 =
      (Await (runObs (New fn) ops)).2 ∧
    (runObs ((Await (runObs (New fn) ops)).1) ops2).invocations =
      ((Await (runObs (New fn) ops)).1).invocations := by
  have hR : (Await (runObs (New fn) ops)).1 =
      { fn := fn, resolved := some (fn ()), invocations := 1 } :=
    get_runObs_new fn ops
  refine ⟨runObs_invocations_le fn ops, ?_, ?_, ?_⟩
  · rw [hR]
  · rw [hR, runObs_of_resolved _ (fn ()) rfl]
    show (Await _).2 = (Await (runObs (New fn) ops)).2
    unfold Await
    rw [get_of_resolved _ (fn ()) rfl, get_runObs_new fn ops]
  · rw [hR, runObs_of_resolved _ (fn ()) rfl]

/-- C3: `New` itself does not invoke the computation (the fresh promise is
unresolved with zero invocations), and after any non-empty sequence of
observations the computation has run exactly once and the promise is
resolved with the computation's pair. -/
theorem c3_lazy_start_on_first_observation {T : Type u} {E : Type v}
    (fn : Unit → T × Option E) :
    (New fn).resolved = none ∧ (New fn).invocations = 0 ∧
    ∀ (o : Obs T) (ops : List (Obs T)),
      (runObs (New fn) (o :: ops)).invocations = 1 ∧
      (runObs (New fn) (o :: ops)).resolved = some (fn ()) := by
  refine ⟨rfl, rfl, fun o ops => ?_⟩
  rw [runObs_get_of_nonempty fn o ops]
  exact ⟨rfl, rfl⟩

/-- C4: `AwaitOr d` returns the resolved value when the resolved error is
none, and exactly the supplied default `d` when it is non-none — for every
promise and every default, including the zero value. -/
theorem c4_awaitOr_default {T : Type u} {E : Type v} (p : Promise T E)
    (d : T) :
    (AwaitOr p d).2 = (((Await p).2).2).elim (((Await p).2).1) (fun _ => d) := by
  unfold AwaitOr
  rcases h : Await p with ⟨p1, v, e⟩
  cases e <;> rfl

/-- C2 counterexample: the claim that a resolved promise with non-none
error always stores the zero value — regardless of what pair the
computation returned — is false: a computation returning `(5, some e)`
resolves to value `5`, not the zero value `0` of `Nat`. -/
theorem c2_counterexample :
    ¬ (∀ (fn : Unit → Nat × Option String),
        (((Await (New fn)).2).2).isSome → ((Await (New fn)).2).1 = 0) := by
  intro h
  exact absurd (h (fun _ => (5, some "boom")) rfl : (5 : Nat) = 0) (by decide)

/-- C2 amended: the resolved `(value, err)` pair is exactly the pair the
computation returned — after any observation sequence — so a non-none
`err` comes with the zero value precisely when the computation itself
returned the zero value alongside its error. -/
theorem c2_amended_stored_pair_verbatim {T : Type u} {E : Type v}
    (fn : Unit → T × Option E) (o : Obs T) (ops : List (Obs T)) :
    resVal (runObs (New fn) (o :: ops)) = fn () ∧
    (Await (runObs (New fn) ops)).2 = fn () := by
  constructor
  · rw [runObs_get_of_nonempty fn o ops]
    rfl
  · show resVal (get (runObs (New fn) ops)) = fn ()
    rw [get_runObs_new fn ops]
    rfl

/-- C5: when every input of a non-empty `All` resolves with a none error,
the combined promise resolves to the inputs' values in input-position
order, whatever order the fan-out goroutines complete in (any schedule
that runs each goroutine exactly once), with a none error. -/
theorem c5_all_success_input_order {T : Type u} {E : Type v} [Inhabited T]
    (ps : List (Promise T E)) (sched : List (Nat × Bool))
    (hne : ps ≠ [])
    (hperm : (sched.map Prod.fst).Perm (List.range ps.length))
    (hall : ∀ p ∈ ps, (awaited p).2 = none) :
    awaited (All ps sched) = (ps.map (fun p => (awaited p).1), none) := by
  rw [awaited_all]
  exact allCompute_success ps sched hall
    (fun j hj => (hperm.mem_iff).mpr (List.mem_range.mpr hj))

theorem c5_witness :
    awaited (All
      [New (fun _ => ((10 : Nat), (none : Option String))),
       New (fun _ => ((20 : Nat), (none : Option String)))]
      [(1, false), (0, false)]) = ([10, 20], none) :=
  c5_all_success_input_order _ _ (List.cons_ne_nil _ _) (by decide)
    (by intro p hp; fin_cases hp <;> rfl)

/-- C6: when at least one input of `All` resolves with a non-none error,
the combined promise resolves to the empty sequence paired with the first
error detected in completion (schedule) order, and that error is an
input's error propagated verbatim. -/
theorem c6_all_first_error {T : Type u} {E : Type v} [Inhabited T]
    (ps : List (Promise T E)) (sched : List (Nat × Bool))
    (hcov : ∀ j, j < ps.length → j ∈ sched.map Prod.fst)
    (p0 : Promise T E) (hp0 : p0 ∈ ps) (hf : ((awaited p0).2).isSome) :
    ∃ e, firstErr ps (sched.map Prod.fst) = some e ∧
      awaited (All ps sched) = ([], some e) ∧
      ∃ (j : Nat) (p : Promise T E), ps[j]? = some p ∧
        (awaited p).2 = some e := by
  obtain ⟨j, hj⟩ := List.mem_iff_getElem?.mp hp0
  have hjlt : j < ps.length := by
    rcases List.getElem?_eq_some_iff.mp hj with ⟨h, _⟩
    exact h
  have hsome := firstErr_isSome ps (sched.map Prod.fst) j p0 (hcov j hjlt) hj hf
  rcases he : firstErr ps (sched.map Prod.fst) with _ | e
  · rw [he] at hsome
    cases hsome
  · refine ⟨e, rfl, ?_, ?_⟩
    · rw [awaited_all]
      apply allCompute_of_err ps sched e (List.ne_nil_of_mem hp0)
      rw [allFold_err]
      exact he
    · rcases firstErr_spec ps _ e he with ⟨j1, _, p1, hp1, hv1⟩
      exact ⟨j1, p1, hp1, hv1⟩

theorem c6_witness :
    ∃ e, firstErr
        [New (fun _ => ((1 : Nat), (none : Option String))),
         New (fun _ => ((2 : Nat), some "a")),
         New (fun _ => ((3 : Nat), some "b"))]
        (([(2, false), (1, false), (0, false)] :
          List (Nat × Bool)).map Prod.fst) = some e ∧
      awaited (All
        [New (fun _ => ((1 : Nat), (none : Option String))),
         New (fun _ => ((2 : Nat), some "a")),
         New (fun _ => ((3 : Nat), some "b"))]
        [(2, false), (1, false), (0, false)]) = ([], some e) ∧
      ∃ (j : Nat) (p : Promise Nat String),
        ([New (fun _ => ((1 : Nat), (none : Option String))),
         New (fun _ => ((2 : Nat), some "a")),
         New (fun _ => ((3 : Nat), some "b"))])[j]? = some p ∧
        (awaited p).2 = some e :=
  c6_all_first_error _ _
    (by
      intro j hj
      have hj3 : j < 3 := hj
      rcases (by omega : j = 0 ∨ j = 1 ∨ j = 2) with h | h | h <;> subst h <;>
        decide)
    (New (fun _ => ((2 : Nat), some "a")))
    (List.mem_cons_of_mem _ (List.mem_cons_self _ _)) rfl

/-- C7: `All` of zero input promises resolves to the empty sequence with a
none error. -/
theorem c7_all_empty {T : Type u} {E : Type v} [Inhabited T]
    (sched : List (Nat × Bool)) :
    awaited (All ([] : List (Promise T E)) sched) = ([], none) :=
  rfl

/-- C8: `Race` of zero input promises resolves to the zero value of the
result type with a none error. -/
theorem c8_race_empty {T : Type u} {E : Type v} [Inhabited T]
    (sched : List Nat) :
    awaited (Race ([] : List (Promise T E)) sched) = ((default : T), none) :=
  rfl

/-- C9 counterexample: `Race` does not commit the first-detected input's
`(value, err)` pair verbatim: an input resolving to `(7, some e)` makes the
race resolve to `(0, some e)` — the value is replaced by the zero value. -/
theorem c9_counterexample :
    awaited (Race [New (fun _ => ((7 : Nat), some "boom"))] [0]) =
      (0, some "boom") ∧
    awaited (New (fun _ => ((7 : Nat), some "boom"))) = (7, some "boom") ∧
    (((0 : Nat), some "boom") : Nat × Option String) ≠ (7, some "boom") :=
  ⟨rfl, rfl, by decide⟩

/-- C9 amended: for a non-empty `Race`, the result is committed exactly
once, to the pair derived from the first-detected input — its value with a
none error when it succeeded, else the zero value of `T` with its error —
and the committed result is independent of everything scheduled after the
commit (later-finishing inputs never change it). -/
theorem c9_amended_commit_once {T : Type u} {E : Type v} [Inhabited T]
    (ps : List (Promise T E)) (i : Nat) (p : Promise T E)
    (hq : ps[i]? = some p) (rest rest2 : List Nat) :
    awaited (Race ps (i :: rest)) = raceCommit (awaited p) ∧
    awaited (Race ps (i :: rest)) = awaited (Race ps (i :: rest2)) := by
  refine ⟨race_first ps i p hq rest, ?_⟩
  rw [race_first ps i p hq rest, race_first ps i p hq rest2]

theorem c9_amended_witness :
    awaited (Race [New (fun _ => ((4 : Nat), (none : Option String)))] [0]) =
      raceCommit (awaited (New (fun _ => ((4 : Nat), (none : Option String))))) ∧
    awaited (Race [New (fun _ => ((4 : Nat), (none : Option String)))] [0]) =
      awaited (Race [New (fun _ => ((4 : Nat), (none : Option String)))]
        [0, 0]) :=
  c9_amended_commit_once _ 0 _ rfl [] [0]

/-- C10: when the first-detected input of a non-empty `Race` resolved with
value `v` and a non-none error `e`, the race resolves to the zero value of
`T` with `e`: the failing input's value `v` is discarded, even when
non-zero. -/
theorem c10_race_error_discards_value {T : Type u} {E : Type v} [Inhabited T]
    (ps : List (Promise T E)) (i : Nat) (p : Promise T E)
    (rest : List Nat) (v : T) (e : E)
    (hq : ps[i]? = some p) (hv : awaited p = (v, some e)) :
    awaited (Race ps (i :: rest)) = ((default : T), some e) := by
  rw [race_first ps i p hq rest, hv]
  rfl

theorem c10_witness :
    awaited (Race [New (fun _ => ((7 : Nat), some "x"))] [0]) =
      ((0 : Nat), some "x") :=
  c10_race_error_discards_value _ 0 _ [] 7 "x" rfl rfl

end promise
